import Mathlib

/-!
Verification development for the Filesync-Web-UI repository.

Shallow embedding of the core pure logic of `src/app/utils.py` and
`src/app/filesync.py`: the pattern matcher, destination-path construction,
the resumable chunked copier, the retention passes, the history store, the
source-copy coordinator lane, and the CLI exit flow. Filesystem state is
passed explicitly (lists of entries, existence predicates, operation
traces); machine time is an integer number of seconds; Python `datetime`
values are modelled as integers.
-/

namespace Filesync

/-! ## Pattern matcher (src/app/utils.py)

Python `str.casefold` is modelled as per-character `Char.toLower` (they
agree on ASCII, which is all the repository and these claims exercise).
`fnmatch.fnmatch` is modelled by translating the glob into tokens and
matching, following the translate-then-match structure of the library:
`*` matches any run, `?` one character, `[seq]` a character class with
ranges and `!` negation, an unterminated `[` is a literal. -/

def DEFAULT_PATTERN : String := "*"

def caseFold (s : String) : List Char :=
  s.data.map Char.toLower

/-- One token of a translated glob pattern. -/
inductive GlobTok where
  | star : GlobTok
  | anyChar : GlobTok
  | lit (c : Char) : GlobTok
  | cls (neg : Bool) (cs : List Char) : GlobTok
deriving DecidableEq

/-- Scan for the first closing bracket, returning the content before it
and the remainder after it. -/
def findClose : List Char → Option (List Char × List Char)
  | [] => none
  | c :: rest =>
    if c = ']' then some ([], rest)
    else (findClose rest).map (fun pr => (c :: pr.1, pr.2))

theorem findClose_length {l content rest : List Char}
    (h : findClose l = some (content, rest)) :
    content.length + rest.length < l.length := by
  induction l generalizing content rest with
  | nil => simp [findClose] at h
  | cons c tl ih =>
    by_cases hc : c = ']'
    · rw [findClose, if_pos hc, Option.some.injEq, Prod.mk.injEq] at h
      obtain ⟨h1, h2⟩ := h
      subst h1
      subst h2
      simp
    · rw [findClose, if_neg hc] at h
      cases hfc : findClose tl with
      | none => rw [hfc] at h; simp at h
      | some pr =>
        obtain ⟨a, b⟩ := pr
        rw [hfc] at h
        simp only [Option.map_some', Option.some.injEq, Prod.mk.injEq] at h
        obtain ⟨h1, h2⟩ := h
        have hlt := ih hfc
        subst h1
        subst h2
        simp only [List.length_cons]
        omega

/-- Shared tail of the bracket parser: `body` are the characters after the
opening bracket and the optional negation mark; the first content char is
consumed unconditionally, so a closing bracket in first position is
literal, as in `fnmatch.translate`. -/
def splitBracketAux (neg : Bool) (body : List Char) :
    Option (Bool × List Char × List Char) :=
  match body with
  | [] => none
  | c0 :: rest0 =>
    match findClose rest0 with
    | none => none
    | some (content, rest) => some (neg, c0 :: content, rest)

/-- Parse a bracket class body (the characters after an opening bracket).
Returns the negation flag, the class content, and the rest of the
pattern; `none` when there is no closing bracket. -/
def splitBracket (p : List Char) : Option (Bool × List Char × List Char) :=
  match p with
  | [] => none
  | c :: rest =>
    if c = '!' then splitBracketAux true rest
    else splitBracketAux false (c :: rest)

theorem splitBracketAux_length {b : Bool} {body : List Char} {neg : Bool}
    {content rest : List Char}
    (h : splitBracketAux b body = some (neg, content, rest)) :
    rest.length < body.length := by
  cases body with
  | nil => simp [splitBracketAux] at h
  | cons c0 rest0 =>
    rw [splitBracketAux] at h
    cases hfc : findClose rest0 with
    | none => rw [hfc] at h; simp at h
    | some pr =>
      obtain ⟨a, b2⟩ := pr
      rw [hfc] at h
      simp only [Option.some.injEq, Prod.mk.injEq] at h
      obtain ⟨_, _, h3⟩ := h
      subst h3
      have := findClose_length hfc
      simp only [List.length_cons]
      omega

theorem splitBracket_length {p : List Char} {neg : Bool}
    {content rest : List Char}
    (h : splitBracket p = some (neg, content, rest)) :
    rest.length < p.length := by
  cases p with
  | nil => simp [splitBracket] at h
  | cons c tl =>
    rw [splitBracket] at h
    by_cases hc : c = '!'
    · rw [if_pos hc] at h
      have := splitBracketAux_length h
      simp only [List.length_cons]
      omega
    · rw [if_neg hc] at h
      exact splitBracketAux_length h

/-- Translate a glob pattern into tokens, as `fnmatch.translate` does.
Structural recursion over a fuel argument so that the kernel can
evaluate it; `tokenize` below supplies sufficient fuel. -/
def tokenizeF : Nat → List Char → List GlobTok
  | 0, _ => []
  | _, [] => []
  | fuel + 1, c :: rest =>
    if c = '*' then GlobTok.star :: tokenizeF fuel rest
    else if c = '?' then GlobTok.anyChar :: tokenizeF fuel rest
    else if c = '[' then
      match splitBracket rest with
      | none => GlobTok.lit '[' :: tokenizeF fuel rest
      | some (neg, content, after) => GlobTok.cls neg content :: tokenizeF fuel after
    else GlobTok.lit c :: tokenizeF fuel rest

def tokenize (p : List Char) : List GlobTok :=
  tokenizeF p.length p

/-- Membership in a bracket class content, honoring ranges such as a-z. -/
def memSet : List Char → Char → Bool
  | [], _ => false
  | a :: '-' :: b :: rest, c =>
    (a.val ≤ c.val && c.val ≤ b.val) || memSet rest c
  | a :: rest, c => (a = c) || memSet rest c

/-- Match a token list against a string, as the compiled pattern does.
Structural recursion over fuel; every recursive call shrinks
`ts.length + s.length`, so `tokMatch` below supplies sufficient fuel. -/
def tokMatchF : Nat → List GlobTok → List Char → Bool
  | 0, _, _ => false
  | _ + 1, [], s => s.isEmpty
  | fuel + 1, GlobTok.star :: ts, s =>
    tokMatchF fuel ts s ||
      (match s with
       | [] => false
       | _ :: rest => tokMatchF fuel (GlobTok.star :: ts) rest)
  | fuel + 1, GlobTok.anyChar :: ts, s =>
    (match s with
     | [] => false
     | _ :: rest => tokMatchF fuel ts rest)
  | fuel + 1, GlobTok.lit c :: ts, s =>
    (match s with
     | [] => false
     | d :: rest => (c = d) && tokMatchF fuel ts rest)
  | fuel + 1, GlobTok.cls neg cs :: ts, s =>
    (match s with
     | [] => false
     | d :: rest => ((memSet cs d) != neg) && tokMatchF fuel ts rest)

def tokMatch (ts : List GlobTok) (s : List Char) : Bool :=
  tokMatchF (ts.length + s.length + 1) ts s

/-- Model of `fnmatch.fnmatch(name, pattern)` on already-casefolded input. -/
def fnmatch (name : List Char) (pattern : List Char) : Bool :=
  tokMatch (tokenize pattern) name

/-- Python `str.split(",")`: cut at every comma, keeping empty pieces. -/
def splitOnComma : List Char → List (List Char)
  | [] => [[]]
  | c :: rest =>
    match splitOnComma rest with
    | [] => [[]]
    | cur :: others =>
      if c = ',' then [] :: cur :: others else (c :: cur) :: others

/-- Python `str.strip()`: drop leading and trailing whitespace. -/
def pyStrip (cs : List Char) : List Char :=
  ((cs.dropWhile Char.isWhitespace).reverse.dropWhile Char.isWhitespace).reverse

/-- `parse_patterns` from src/app/utils.py: split the comma-separated
pattern string, strip blanks, drop empties, default to the single star. -/
def parse_patterns (pattern_value : String) : List String :=
  if pattern_value = "" then [DEFAULT_PATTERN]
  else
    let parts := (splitOnComma pattern_value.data).map
      (fun part => String.mk (pyStrip part))
    let patterns := parts.filter (fun part => part ≠ "")
    if patterns = [] then [DEFAULT_PATTERN] else patterns

/-- `matches_patterns` from src/app/utils.py: casefold both sides, return
true when any pattern matches the file name. -/
def matches_patterns (file_name : String) (patterns : List String) : Bool :=
  let lowered_name := caseFold file_name
  patterns.any (fun pattern => fnmatch lowered_name (caseFold pattern))

/-! ## File-name stem and suffix (pathlib semantics)

`PurePath.suffix` is the part from the last dot on, provided that dot is
neither the first nor the last character of the name; `stem` is the rest. -/

/-- Index of the last dot of a name, if any. -/
def rfindDot : List Char → Option Nat
  | [] => none
  | c :: rest =>
    match rfindDot rest with
    | some i => some (i + 1)
    | none => if c = '.' then some 0 else none

/-- Split a file name into pathlib stem and suffix. -/
def splitStemSuffix (name : String) : String × String :=
  match rfindDot name.data with
  | some i =>
    if 0 < i ∧ i < name.data.length - 1 then
      (String.mk (name.data.take i), String.mk (name.data.drop i))
    else (name, "")
  | none => (name, "")

/-! ## Copy-lane coordinator (src/app/filesync.py, class _CopyLane)

A lane holds the mutable triple (`_active_id`, `_waiting`,
`_last_served_id`).  The condition variable and the wait loop are
concurrency plumbing; their effect on the shared triple is exactly the
atomic transitions below, each performed under the lane lock. -/

structure LaneState where
  active_id : Option Int
  waiting : List Int
  last_served_id : Option Int
deriving DecidableEq

/-- The initial state of a freshly constructed lane. -/
def initLane : LaneState := ⟨none, [], none⟩

/-- `_CopyLane._remove_waiter`. -/
def _remove_waiter (s : LaneState) (config_id : Int) : LaneState :=
  { s with waiting := s.waiting.filter (fun cid => cid ≠ config_id) }

/-- `_CopyLane._next_candidate`: smallest unique waiter above
`last_served_id` when one exists, else the smallest waiter. -/
def _next_candidate (s : LaneState) : Option Int :=
  if s.waiting.isEmpty then none
  else
    let unique_sorted := List.insertionSort (fun a b => a ≤ b) s.waiting.dedup
    match s.last_served_id with
    | none => unique_sorted.head?
    | some last =>
      let higher := unique_sorted.filter (fun cid => last < cid)
      if higher.isEmpty then unique_sorted.head? else higher.head?

/-- The guard computed inside `_CopyLane.acquire`: the slot is free or
already ours, and we are the next candidate. -/
def can_take_slot (s : LaneState) (config_id : Int) : Bool :=
  (decide (s.active_id = none) || decide (s.active_id = some config_id)) &&
    decide (_next_candidate s = some config_id)

/-- `_CopyLane.release`: clear the slot and remember the holder, only
when the caller actually holds it. -/
def release (s : LaneState) (config_id : Int) : LaneState :=
  if s.active_id = some config_id then
    { active_id := none,
      waiting := s.waiting,
      last_served_id := some config_id }
  else s

/-- `_CopyLane.abandon`: drop the caller from the waiter list and clear
the slot when the caller holds it. -/
def abandon (s : LaneState) (config_id : Int) : LaneState :=
  let s1 := _remove_waiter s config_id
  if s1.active_id = some config_id then
    { s1 with active_id := none, last_served_id := some config_id }
  else s1

/-- One atomic transition of a lane, as performed by some configuration
id under the lane lock: joining the waiter list at the top of `acquire`,
being granted the slot when the guard holds, leaving the list on
cancellation, and the `release` and `abandon` calls. -/
inductive LaneStep : LaneState → LaneState → Prop where
  | enqueue (c : Int) (s : LaneState) (h : c ∉ s.waiting) :
      LaneStep s { s with waiting := s.waiting ++ [c] }
  | grant (c : Int) (s : LaneState) (h : can_take_slot s c = true) :
      LaneStep s
        { active_id := some c,
          waiting := (_remove_waiter s c).waiting,
          last_served_id := s.last_served_id }
  | cancel (c : Int) (s : LaneState) :
      LaneStep s (_remove_waiter s c)
  | doRelease (c : Int) (s : LaneState) :
      LaneStep s (release s c)
  | doAbandon (c : Int) (s : LaneState) :
      LaneStep s (abandon s c)

/-- States reachable by any interleaving of lane calls. -/
inductive LaneReachable : LaneState → Prop where
  | init : LaneReachable initLane
  | step {s t : LaneState} :
      LaneReachable s → LaneStep s t → LaneReachable t

/-! ## Destination path construction (src/app/filesync.py,
`build_destination_path`)

Paths are lists of components.  The filesystem is the `path_exists`
predicate; `timestamp` is the `datetime.now().strftime` result. -/

/-- `build_destination_path`: destination joined with the source-root
relative path (leaf name when the file is outside the root); when the
target exists and overwriting is off, mint a timestamped sibling name. -/
def build_destination_path (destination : List String)
    (source_file : List String) (source_root : List String)
    (overwrite_existing : Bool) (path_exists : List String → Bool)
    (timestamp : String) : List String :=
  let rel_path :=
    if source_root.isPrefixOf source_file then
      source_file.drop source_root.length
    else [source_file.getLastD ""]
  let target_path := destination ++ rel_path
  if path_exists target_path then
    if overwrite_existing then target_path
    else
      let name := target_path.getLastD ""
      let stem := (splitStemSuffix name).1
      let suffix := (splitStemSuffix name).2
      let new_name := stem ++ "_" ++ timestamp ++ suffix
      target_path.dropLast ++ [new_name]
  else target_path

/-! ## Resumable chunked copy (src/app/filesync.py,
`copy_file_with_progress` and `copy_backup`)

File contents are byte lists.  The chunk loop of
`copy_file_with_progress` reads `COPY_CHUNK_SIZE` bytes at a time from
the current offset and appends them to the open destination handle. -/

def COPY_CHUNK_SIZE : Nat := 8 * 1024 * 1024

/-- The bytes produced by the chunked read loop starting at `pos`. -/
def readChunks (src : List Nat) (pos : Nat) : List Nat :=
  if h : (src.drop pos).take COPY_CHUNK_SIZE = [] then []
  else
    (src.drop pos).take COPY_CHUNK_SIZE ++
      readChunks src (pos + ((src.drop pos).take COPY_CHUNK_SIZE).length)
termination_by src.length - pos
decreasing_by
  have hpos : pos < src.length := by
    by_contra hge
    apply h
    have hnil : src.drop pos = [] :=
      List.drop_eq_nil_of_le (Nat.le_of_not_lt hge)
    simp [hnil]
  have hlen : 0 < ((src.drop pos).take COPY_CHUNK_SIZE).length :=
    List.length_pos.mpr h
  omega

/-- `copy_file_with_progress`: the destination handle starts with
`dest_init` (empty for mode wb, the existing temp bytes for mode ab) and
receives the chunks read from offset `start_pos`. -/
def copy_file_with_progress (src : List Nat) (dest_init : List Nat)
    (start_pos : Nat) : List Nat :=
  dest_init ++ readChunks src start_pos

/-- Outcome of a completed `copy_backup` run. -/
structure CopyResult where
  resume_mode : Bool
  start_pos : Nat
  target : List Nat
deriving DecidableEq

/-- `copy_backup`, from the temp-file decision to the final rename:
resume in append mode from the temp size when the temp file is strictly
smaller than the source, else truncate and restart; after the loop, a
pre-existing target without overwrite aborts with no result (the code
returns None), otherwise `os.replace` publishes the temp content as the
target. -/
def copy_backup (src : List Nat) (temp : Option (List Nat))
    (dest_exists : Bool) (overwrite_existing : Bool) : Option CopyResult :=
  let decision : Bool × Nat × List Nat :=
    match temp with
    | some t => if t.length < src.length then (true, t.length, t) else (false, 0, [])
    | none => (false, 0, [])
  let resume_mode := decision.1
  let start_pos := decision.2.1
  let dest_init := decision.2.2
  let final := copy_file_with_progress src dest_init start_pos
  if dest_exists && !overwrite_existing then none
  else some ⟨resume_mode, start_pos, final⟩

/-! ## Retention (src/app/filesync.py, `_iter_backup_entries`,
`_resolve_entry_timestamp`, `_enforce_days_retention`,
`_enforce_count_retention`)

A destination entry is described by its destination-relative path
components, whether it is a directory, and its stat mtimes.  A stored
history string either parses with `datetime.fromisoformat` to an integer
timestamp or does not (an empty string behaves like an unparseable one:
both fall back to the mtime).  Times are integer seconds; one day is
86400 seconds. -/

def HISTORY_DIR_NAME : String := ".history"

structure DEntry where
  relParts : List String
  isDir : Bool
  ownMtime : Int
  childMtimes : List Int
deriving DecidableEq

/-- Leaf name of an entry (`file_path.name`). -/
def entryName (e : DEntry) : String := e.relParts.getLastD ""

/-- A stored history value: a string that parses to a timestamp, or not. -/
inductive HistStr where
  | parseable (t : Int) : HistStr
  | unparseable : HistStr
deriving DecidableEq

/-- The history map keyed by destination-relative path components
(`build_history_key` output in component form). -/
abbrev HistMap := List (List String × HistStr)

/-- `dict.get` on the history map. -/
def lookupHist (h : HistMap) (key : List String) : Option HistStr :=
  (h.find? (fun kv => kv.1 == key)).map (fun kv => kv.2)

/-- `_iter_backup_entries`: files and directories under the destination
that match the patterns, are not under `.history/`, and (for files) do
not carry the `.part` suffix. -/
def _iter_backup_entries (entries : List DEntry) (patterns : List String) :
    List DEntry :=
  entries.filter (fun e =>
    if e.isDir then
      !(decide (e.relParts.head? = some HISTORY_DIR_NAME)) &&
        matches_patterns (entryName e) patterns
    else
      !(decide (e.relParts.head? = some HISTORY_DIR_NAME)) &&
        !(decide ((splitStemSuffix (entryName e)).2 = ".part")) &&
        matches_patterns (entryName e) patterns)

/-- `_resolve_entry_timestamp`: the parsed history value when present,
else the file mtime, else the recursive max mtime for a directory. -/
def _resolve_entry_timestamp (e : DEntry) (history_value : Option HistStr) :
    Int :=
  match history_value with
  | some (HistStr.parseable t) => t
  | _ =>
    if e.isDir then e.childMtimes.foldl max e.ownMtime
    else e.ownMtime

/-- The effective timestamp of an entry under a given history map. -/
def entryTs (history : HistMap) (e : DEntry) : Int :=
  _resolve_entry_timestamp e (lookupHist history e.relParts)

/-- Result of one retention pass: the deleted entries, the updated
history map, and whether the history changed. -/
structure RetentionResult where
  deleted : List DEntry
  history : HistMap
  changed : Bool

/-- `_enforce_days_retention`: delete every iterated entry whose
effective timestamp is strictly before `now − retention_days` days, and
drop the deleted keys from the history map. -/
def _enforce_days_retention (entries : List DEntry) (patterns : List String)
    (sync_history : HistMap) (now : Int) (retention_days : Int) :
    RetentionResult :=
  if retention_days ≤ 0 then ⟨[], sync_history, false⟩
  else
    let threshold := now - retention_days * 86400
    let deleted := (_iter_backup_entries entries patterns).filter
      (fun e => decide (entryTs sync_history e < threshold))
    let keys := deleted.map (fun e => e.relParts)
    let history1 := sync_history.filter (fun kv => !(keys.contains kv.1))
    let changed := keys.any (fun k => (lookupHist sync_history k).isSome)
    ⟨deleted, history1, changed⟩

/-- `_enforce_count_retention`: with more than `retention_limit` iterated
entries, sort them by effective timestamp descending, keep the first
`retention_limit`, delete the rest, and drop the deleted keys. -/
def _enforce_count_retention (entries : List DEntry) (patterns : List String)
    (sync_history : HistMap) (retention_limit : Int) : RetentionResult :=
  if retention_limit ≤ 0 then ⟨[], sync_history, false⟩
  else
    let file_entries := (_iter_backup_entries entries patterns).map
      (fun e => (e, entryTs sync_history e))
    if (file_entries.length : Int) ≤ retention_limit then
      ⟨[], sync_history, false⟩
    else
      let sorted_entries :=
        List.insertionSort (fun a b : DEntry × Int => b.2 ≤ a.2) file_entries
      let targets := sorted_entries.drop retention_limit.toNat
      let keys := targets.map (fun p => p.1.relParts)
      let history1 := sync_history.filter (fun kv => !(keys.contains kv.1))
      let changed := keys.any (fun k => (lookupHist sync_history k).isSome)
      ⟨targets.map (fun p => p.1), history1, changed⟩

/-! ## History store persistence (src/app/utils.py, `save_sync_history`)

The observable filesystem actions of a save are modelled as a trace of
operations. -/

inductive FsOp where
  | mkdirParents (dir : List String) : FsOp
  | writeFile (path : List String) (content : String) : FsOp
  | rename (src : List String) (dst : List String) : FsOp
deriving DecidableEq

/-- `save_sync_history`: ensure the parent directory exists, then open
the target path for writing and dump the serialized map into it. -/
def save_sync_history (history_path : List String) (serialized : String) :
    List FsOp :=
  [FsOp.mkdirParents history_path.dropLast,
   FsOp.writeFile history_path serialized]

/-- Modelled from the spec: the atomic variant of `save(destination,
map)` that the specification describes (ensure parent directory, write
to a temp file, rename over the target).  The repository has no such
code path; this definition exists to compare the spec against
`save_sync_history`. -/
def save_spec_ops (history_path : List String) (temp_path : List String)
    (serialized : String) : List FsOp :=
  [FsOp.mkdirParents history_path.dropLast,
   FsOp.writeFile temp_path serialized,
   FsOp.rename temp_path history_path]

/-- True when the operation writes file content directly at `target`. -/
def writesDirectlyTo (op : FsOp) (target : List String) : Bool :=
  match op with
  | FsOp.writeFile p _ => p == target
  | _ => false

/-- True when the operation renames some other path onto `target`. -/
def renamesOnto (op : FsOp) (target : List String) : Bool :=
  match op with
  | FsOp.rename src dst => dst == target && src != target
  | _ => false

/-- The atomicity contract the claim states for the history save: the
target is never opened for direct writing, and the new content arrives
by renaming a temp file over the target. -/
def WritesAtomically (ops : List FsOp) (target : List String) : Bool :=
  ops.all (fun op => !(writesDirectlyTo op target)) &&
    ops.any (fun op => renamesOnto op target)

/-- A flat filesystem as path-content pairs, for running an op trace. -/
def runOp (fs : List (List String × String)) (op : FsOp) :
    List (List String × String) :=
  match op with
  | FsOp.mkdirParents _ => fs
  | FsOp.writeFile p c => (p, c) :: fs.filter (fun kv => kv.1 ≠ p)
  | FsOp.rename src dst =>
    match fs.find? (fun kv => kv.1 == src) with
    | none => fs
    | some kv =>
      (dst, kv.2) :: (fs.filter (fun e => e.1 ≠ src ∧ e.1 ≠ dst))

def runOps (fs : List (List String × String)) (ops : List FsOp) :
    List (List String × String) :=
  ops.foldl runOp fs

/-- Content of a file after running a trace. -/
def fileContent (fs : List (List String × String)) (p : List String) :
    Option String :=
  (fs.find? (fun kv => kv.1 == p)).map (fun kv => kv.2)

/-! ## CLI exit flow (src/app/filesync.py, `validate_paths`,
`FileSyncManager.run`, `main`)

`validate_paths` raises `ValueError` when the source is missing or not a
directory; `FileSyncManager.run` catches that `ValueError` itself, logs
it, moves the status to STOPPED and returns; `main` wraps `run` in a
`try` whose `except ValueError` calls `sys.exit(1)`. -/

/-- `validate_paths` as a fallible computation. -/
def validate_paths (source_exists source_is_dir : Bool) :
    Except String Unit :=
  if !source_exists || !source_is_dir then
    Except.error "Source folder does not exist or is not a directory"
  else Except.ok ()

/-- The exception behavior of `FileSyncManager.run` around validation:
a validation error is caught inside `run` (state becomes STOPPED) and
`run` returns normally; the returned flag records whether the engine
kept running past validation. -/
def FileSyncManager_run (source_exists source_is_dir : Bool) :
    Except String Bool :=
  match validate_paths source_exists source_is_dir with
  | Except.error _ => Except.ok false
  | Except.ok _ => Except.ok true

/-- The process exit status of `main`: 1 only when `run` lets a
`ValueError` escape, 0 otherwise. -/
def main_exit_code (source_exists source_is_dir : Bool) : Nat :=
  match FileSyncManager_run source_exists source_is_dir with
  | Except.error _ => 1
  | Except.ok _ => 0

instance : IsTotal (DEntry × Int) (fun a b => b.2 ≤ a.2) :=
  ⟨fun a b => (le_total b.2 a.2)⟩

instance : IsTrans (DEntry × Int) (fun a b => b.2 ≤ a.2) :=
  ⟨fun _ _ _ hab hbc => le_trans hbc hab⟩

/-! ## Helper lemmas -/

theorem tokMatchF_star_any (s : List Char) :
    ∀ fuel, s.length + 2 ≤ fuel →
      tokMatchF fuel [GlobTok.star] s = true := by
  induction s with
  | nil =>
    intro fuel hf
    match fuel, hf with
    | f + 2, _ => simp [tokMatchF]
  | cons c rest ih =>
    intro fuel hf
    match fuel, hf with
    | f + 1, hf =>
      have hrest : rest.length + 2 ≤ f := by
        simp only [List.length_cons] at hf
        omega
      rw [tokMatchF]
      rw [ih f hrest]
      simp

theorem sorted_head_min {l : List Int}
    (hs : List.Sorted (fun a b : Int => a ≤ b) l) {m : Int}
    (hh : l.head? = some m) : ∀ x ∈ l, m ≤ x := by
  cases l with
  | nil => simp at hh
  | cons a t =>
    simp only [List.head?_cons, Option.some.injEq] at hh
    subst hh
    intro x hx
    rcases List.mem_cons.mp hx with hxa | hxt
    · exact le_of_eq hxa.symm
    · exact (List.sorted_cons.mp hs).1 x hxt

theorem head?_mem {α : Type} {l : List α} {m : α} (hh : l.head? = some m) :
    m ∈ l := by
  cases l with
  | nil => simp at hh
  | cons a t =>
    simp only [List.head?_cons, Option.some.injEq] at hh
    subst hh
    exact List.mem_cons_self a t

theorem readChunks_eq_drop (src : List Nat) (pos : Nat) :
    readChunks src pos = src.drop pos := by
  induction pos using readChunks.induct src with
  | case1 pos h =>
    rw [readChunks, dif_pos h]
    have hC : COPY_CHUNK_SIZE ≠ 0 := by decide
    have hiff := List.take_eq_nil_iff.mp h
    rcases hiff with hd | hd
    · exact absurd hd hC
    · exact hd.symm
  | case2 pos h ih =>
    rw [readChunks, dif_neg h, ih]
    have hlen : ((src.drop pos).take COPY_CHUNK_SIZE).length =
        min COPY_CHUNK_SIZE (src.drop pos).length := List.length_take _ _
    rw [hlen]
    by_cases hC : COPY_CHUNK_SIZE ≤ (src.drop pos).length
    · have hmin : min COPY_CHUNK_SIZE (src.drop pos).length =
        COPY_CHUNK_SIZE := min_eq_left hC
      rw [hmin]
      exact List.drop_take_append_drop src pos COPY_CHUNK_SIZE
    · have hlt : (src.drop pos).length < COPY_CHUNK_SIZE :=
        Nat.lt_of_not_le hC
      have hmin : min COPY_CHUNK_SIZE (src.drop pos).length =
          (src.drop pos).length := min_eq_right (Nat.le_of_lt hlt)
      rw [hmin]
      have htake : (src.drop pos).take COPY_CHUNK_SIZE = src.drop pos :=
        List.take_of_length_le (Nat.le_of_lt hlt)
      have hdrop : src.drop (pos + (src.drop pos).length) = [] := by
        apply List.drop_eq_nil_of_le
        have := List.length_drop pos src
        omega
      rw [hdrop, htake, List.append_nil]

theorem lookupHist_filter_removed {history : HistMap} {keys : List (List String)}
    {k : List String} (hk : k ∈ keys) :
    lookupHist (history.filter (fun kv => !(keys.contains kv.1))) k = none := by
  unfold lookupHist
  rw [Option.map_eq_none', List.find?_eq_none]
  intro kv hkv
  have hmem := List.mem_filter.mp hkv
  have hnotin : kv.1 ∉ keys := by
    have := hmem.2
    simpa using this
  intro hbeq
  have : kv.1 = k := by simpa using hbeq
  exact hnotin (this ▸ hk)

theorem mem_filter_kept {history : HistMap} {keys : List (List String)}
    {kv : List String × HistStr} (hkv : kv ∈ history) (hk : kv.1 ∉ keys) :
    kv ∈ history.filter (fun kv => !(keys.contains kv.1)) := by
  apply List.mem_filter.mpr
  refine ⟨hkv, ?_⟩
  simpa using hk

theorem splitStemSuffix_append (name : String) :
    (splitStemSuffix name).1 ++ (splitStemSuffix name).2 = name := by
  unfold splitStemSuffix
  cases hfd : rfindDot name.data with
  | none => simp [hfd]
  | some i =>
    simp only [hfd]
    by_cases hcond : 0 < i ∧ i < name.data.length - 1
    · rw [if_pos hcond]
      show String.mk (name.data.take i) ++ String.mk (name.data.drop i) = name
      have happ : String.mk (name.data.take i) ++ String.mk (name.data.drop i) =
          String.mk (name.data.take i ++ name.data.drop i) := rfl
      rw [happ, List.take_append_drop]
    · rw [if_neg hcond]
      simp

/-! ## Claim theorems -/

/-- C10: for every lane state and every configuration id that is not the
current holder, `release` leaves the whole lane state unchanged. -/
theorem release_noop_for_non_holder (s : LaneState) (c : Int)
    (h : s.active_id ≠ some c) : release s c = s := by
  rw [release, if_neg h]

/-- Witness for C10 at a concrete lane state and id. -/
theorem release_noop_for_non_holder_witness :
    release ⟨some 3, [1, 7], some 2⟩ 7 = ⟨some 3, [1, 7], some 2⟩ :=
  release_noop_for_non_holder ⟨some 3, [1, 7], some 2⟩ 7 (by decide)

/-- C1: over every reachable lane state at most one configuration id
holds the slot; the acquire guard only fires when the slot is free or
already held by the acquirer; and `release` and `abandon` clear a held
slot. -/
theorem coordinator_mutual_exclusion :
    (∀ s, LaneReachable s → ∀ c₁ c₂,
        s.active_id = some c₁ → s.active_id = some c₂ → c₁ = c₂) ∧
    (∀ s c, can_take_slot s c = true →
        s.active_id = none ∨ s.active_id = some c) ∧
    (∀ s c, s.active_id = some c →
        (release s c).active_id = none ∧ (abandon s c).active_id = none) := by
  refine ⟨?_, ?_, ?_⟩
  · intro s _ c₁ c₂ h₁ h₂
    rw [h₁] at h₂
    exact Option.some.inj h₂
  · intro s c h
    have := (Bool.and_eq_true _ _).mp h
    have hleft := this.1
    rcases (Bool.or_eq_true _ _).mp hleft with hn | hs
    · exact Or.inl (of_decide_eq_true hn)
    · exact Or.inr (of_decide_eq_true hs)
  · intro s c h
    constructor
    · rw [release, if_pos h]
    · have hrw : (_remove_waiter s c).active_id = some c := h
      simp only [abandon]
      rw [if_pos hrw]

/-- Witness for C1: a concrete state reached by enqueue then grant, with
the slot held by id 5. -/
theorem coordinator_mutual_exclusion_witness : (5 : Int) = 5 := by
  have h0 : LaneReachable initLane := LaneReachable.init
  have h1 : LaneReachable ⟨none, [5], none⟩ := by
    have := LaneReachable.step h0 (LaneStep.enqueue 5 initLane (by decide))
    exact this
  have h2 : LaneReachable ⟨some 5, [], none⟩ := by
    have hg : can_take_slot ⟨none, [5], none⟩ 5 = true := by decide
    have := LaneReachable.step h1 (LaneStep.grant 5 ⟨none, [5], none⟩ hg)
    exact this
  exact coordinator_mutual_exclusion.1 ⟨some 5, [], none⟩ h2 5 5 rfl rfl

/-- C2 counterexample: on a concrete destination, the trace of
`save_sync_history` writes the target directly and performs no rename,
so it is not the write-temp-then-rename trace the claim describes. -/
theorem save_sync_history_not_atomic :
    WritesAtomically
      (save_sync_history ["dest", ".history", "sync_history.json"] "data")
      ["dest", ".history", "sync_history.json"] = false ∧
    FsOp.writeFile ["dest", ".history", "sync_history.json"] "data" ∈
      save_sync_history ["dest", ".history", "sync_history.json"] "data" := by
  constructor
  · rfl
  · simp [save_sync_history]

/-- C2 amended: `save_sync_history` ensures the parent directory exists
and then writes the serialized map directly to the target (no temp file,
no rename, hence not atomic); after the trace runs, the target holds the
serialized content. -/
theorem save_sync_history_direct_write (history_path : List String)
    (serialized : String) :
    save_sync_history history_path serialized =
      [FsOp.mkdirParents history_path.dropLast,
       FsOp.writeFile history_path serialized] ∧
    WritesAtomically (save_sync_history history_path serialized)
      history_path = false ∧
    (∀ fs, fileContent (runOps fs (save_sync_history history_path serialized))
      history_path = some serialized) := by
  refine ⟨rfl, ?_, ?_⟩
  · unfold WritesAtomically save_sync_history
    simp [renamesOnto]
  · intro fs
    unfold runOps save_sync_history
    simp only [List.foldl_cons, List.foldl_nil]
    unfold runOp fileContent
    simp

/-- C8 counterexample: the empty pattern list does not behave like the
single-star list in `matches_patterns`; it matches nothing. -/
theorem matches_patterns_empty_counterexample :
    matches_patterns "a" [] ≠ matches_patterns "a" [DEFAULT_PATTERN] := by
  decide

/-- C8 amended: `parse_patterns` normalizes the empty pattern string to
the single star; every name matches the single-star list; the empty
pattern list matches no name; and matching is case-insensitive on both
the name and the patterns. -/
theorem pattern_matcher_normalization :
    parse_patterns "" = [DEFAULT_PATTERN] ∧
    (∀ name, matches_patterns name [DEFAULT_PATTERN] = true) ∧
    (∀ name, matches_patterns name [] = false) ∧
    (∀ name₁ name₂ pats₁ pats₂, caseFold name₁ = caseFold name₂ →
      List.Forall₂ (fun p₁ p₂ => caseFold p₁ = caseFold p₂) pats₁ pats₂ →
      matches_patterns name₁ pats₁ = matches_patterns name₂ pats₂) := by
  refine ⟨rfl, ?_, ?_, ?_⟩
  · intro name
    show (fnmatch (caseFold name) (caseFold DEFAULT_PATTERN) || false) = true
    rw [Bool.or_false]
    have ht : tokenize (caseFold DEFAULT_PATTERN) = [GlobTok.star] := rfl
    unfold fnmatch tokMatch
    rw [ht]
    apply tokMatchF_star_any
    simp only [List.length_cons, List.length_nil]
    omega
  · intro name
    rfl
  · intro n₁ n₂ pats₁ pats₂ hn hf
    have hfun : (fun pattern => fnmatch (caseFold n₁) (caseFold pattern)) =
        (fun pattern => fnmatch (caseFold n₂) (caseFold pattern)) := by
      funext pattern
      rw [hn]
    show pats₁.any (fun pattern => fnmatch (caseFold n₁) (caseFold pattern)) =
      pats₂.any (fun pattern => fnmatch (caseFold n₂) (caseFold pattern))
    rw [hfun]
    induction hf with
    | nil => rfl
    | @cons a b l₁ l₂ hab htail ih =>
      simp only [List.any_cons]
      rw [hab, ih]

/-- Witness for C8 at the concrete case pair of the spec. -/
theorem pattern_matcher_normalization_witness :
    matches_patterns "A.BAK" ["*.bak"] = matches_patterns "a.bak" ["*.BAK"] :=
  pattern_matcher_normalization.2.2.2 "A.BAK" "a.bak" ["*.bak"] ["*.BAK"]
    (by decide) (List.Forall₂.cons (by decide) List.Forall₂.nil)

/-- C7: with a non-empty waiting list, the next candidate is the
smallest unique waiter id strictly greater than the last served id when
one exists, and the smallest waiter id otherwise (also when no id was
served yet). -/
theorem next_candidate_spec (s : LaneState) (hw : s.waiting ≠ []) :
    (s.last_served_id = none →
      ∃ m, _next_candidate s = some m ∧ m ∈ s.waiting ∧
        ∀ x ∈ s.waiting, m ≤ x) ∧
    (∀ last, s.last_served_id = some last →
      ((∃ x ∈ s.waiting, last < x) →
        ∃ m, _next_candidate s = some m ∧ m ∈ s.waiting ∧ last < m ∧
          ∀ x ∈ s.waiting, last < x → m ≤ x) ∧
      ((∀ x ∈ s.waiting, ¬ last < x) →
        ∃ m, _next_candidate s = some m ∧ m ∈ s.waiting ∧
          ∀ x ∈ s.waiting, m ≤ x)) := by
  have hie : s.waiting.isEmpty = false := by
    cases hwc : s.waiting with
    | nil => exact absurd hwc hw
    | cons a t => rfl
  have hmem : ∀ x : Int,
      x ∈ List.insertionSort (fun a b => a ≤ b) s.waiting.dedup ↔
        x ∈ s.waiting := by
    intro x
    rw [List.mem_insertionSort, List.mem_dedup]
  have hsorted : List.Sorted (fun a b : Int => a ≤ b)
      (List.insertionSort (fun a b => a ≤ b) s.waiting.dedup) :=
    List.sorted_insertionSort _ _
  have hne : List.insertionSort (fun a b => a ≤ b) s.waiting.dedup ≠ [] := by
    obtain ⟨x, hx⟩ := List.exists_mem_of_ne_nil s.waiting hw
    intro hnil
    have hxin := (hmem x).mpr hx
    rw [hnil] at hxin
    exact absurd hxin (List.not_mem_nil x)
  obtain ⟨m, tl, hustl⟩ :
      ∃ m tl, List.insertionSort (fun a b => a ≤ b) s.waiting.dedup =
        m :: tl := by
    cases hus : List.insertionSort (fun a b => a ≤ b) s.waiting.dedup with
    | nil => exact absurd hus hne
    | cons a t => exact ⟨a, t, rfl⟩
  have hhead : (List.insertionSort (fun a b => a ≤ b)
      s.waiting.dedup).head? = some m := by
    rw [hustl]
    rfl
  have hmmem : m ∈ s.waiting := (hmem m).mp (hustl ▸ List.mem_cons_self m tl)
  have hmmin : ∀ x ∈ s.waiting, m ≤ x := by
    intro x hx
    exact sorted_head_min hsorted hhead x ((hmem x).mpr hx)
  constructor
  · intro hl
    refine ⟨m, ?_, hmmem, hmmin⟩
    unfold _next_candidate
    rw [if_neg (by rw [hie]; simp)]
    rw [hl]
    exact hhead
  · intro last hl
    constructor
    · rintro ⟨x, hx, hlx⟩
      have hxh : x ∈ (List.insertionSort (fun a b => a ≤ b)
          s.waiting.dedup).filter (fun cid => last < cid) := by
        apply List.mem_filter.mpr
        exact ⟨(hmem x).mpr hx, by simp [hlx]⟩
      obtain ⟨mh, tlh, hhtl⟩ :
          ∃ mh tlh, (List.insertionSort (fun a b => a ≤ b)
            s.waiting.dedup).filter (fun cid => last < cid) = mh :: tlh := by
        cases hh : (List.insertionSort (fun a b => a ≤ b)
            s.waiting.dedup).filter (fun cid => last < cid) with
        | nil => rw [hh] at hxh; exact absurd hxh (List.not_mem_nil x)
        | cons a t => exact ⟨a, t, rfl⟩
      have hmh_mem_filter : mh ∈ (List.insertionSort (fun a b => a ≤ b)
          s.waiting.dedup).filter (fun cid => last < cid) :=
        hhtl ▸ List.mem_cons_self mh tlh
      have hmh_props := List.mem_filter.mp hmh_mem_filter
      have hmh_in : mh ∈ s.waiting := (hmem mh).mp hmh_props.1
      have hmh_gt : last < mh := by
        have := hmh_props.2
        simpa using this
      have hsorted_filter : List.Sorted (fun a b : Int => a ≤ b)
          ((List.insertionSort (fun a b => a ≤ b)
            s.waiting.dedup).filter (fun cid => last < cid)) :=
        List.Pairwise.filter _ hsorted
      have hfhead : ((List.insertionSort (fun a b => a ≤ b)
          s.waiting.dedup).filter (fun cid => last < cid)).head? =
            some mh := by
        rw [hhtl]
        rfl
      refine ⟨mh, ?_, hmh_in, hmh_gt, ?_⟩
      · unfold _next_candidate
        rw [if_neg (by rw [hie]; simp)]
        rw [hl]
        have hres : (if ((List.insertionSort (fun a b => a ≤ b)
              s.waiting.dedup).filter
                (fun cid => decide (last < cid))).isEmpty = true then
            (List.insertionSort (fun a b => a ≤ b) s.waiting.dedup).head?
          else ((List.insertionSort (fun a b => a ≤ b)
            s.waiting.dedup).filter
              (fun cid => decide (last < cid))).head?) = some mh := by
          rw [if_neg (by rw [hhtl]; simp)]
          exact hfhead
        exact hres
      · intro y hy hly
        have hyf : y ∈ (List.insertionSort (fun a b => a ≤ b)
            s.waiting.dedup).filter (fun cid => last < cid) := by
          apply List.mem_filter.mpr
          exact ⟨(hmem y).mpr hy, by simp [hly]⟩
        exact sorted_head_min hsorted_filter hfhead y hyf
    · intro hnone
      have hfe : (List.insertionSort (fun a b => a ≤ b)
          s.waiting.dedup).filter (fun cid => last < cid) = [] := by
        apply List.filter_eq_nil_iff.mpr
        intro a ha
        have hain : a ∈ s.waiting := (hmem a).mp ha
        simpa using hnone a hain
      refine ⟨m, ?_, hmmem, hmmin⟩
      unfold _next_candidate
      rw [if_neg (by rw [hie]; simp)]
      rw [hl]
      have hres : (if ((List.insertionSort (fun a b => a ≤ b)
            s.waiting.dedup).filter
              (fun cid => decide (last < cid))).isEmpty = true then
          (List.insertionSort (fun a b => a ≤ b) s.waiting.dedup).head?
        else ((List.insertionSort (fun a b => a ≤ b)
          s.waiting.dedup).filter
            (fun cid => decide (last < cid))).head?) = some m := by
        rw [if_pos (by rw [hfe]; rfl)]
        exact hhead
      exact hres

/-- Witness for C7 at a concrete lane state: ids 1 and 4 wait after 3
was served, so the smallest id above 3 is chosen. -/
theorem next_candidate_spec_witness :
    ∃ m, _next_candidate ⟨none, [4, 1], some 3⟩ = some m ∧
      m ∈ ([4, 1] : List Int) ∧ (3 : Int) < m ∧
      ∀ x ∈ ([4, 1] : List Int), (3 : Int) < x → m ≤ x :=
  ((next_candidate_spec ⟨none, [4, 1], some 3⟩ (by decide)).2 3 rfl).1
    ⟨4, by decide, by decide⟩

/-- C6: with overwrite the destination path is exactly the destination
root joined with the source-root-relative path; without overwrite an
existing target gets a timestamp minted between stem and suffix and a
missing target is returned as is; a file outside the source root falls
back to its leaf name. -/
theorem build_destination_path_spec
    (destination source_file source_root : List String)
    (path_exists : List String → Bool) (timestamp : String) :
    (source_root.isPrefixOf source_file = true →
      (build_destination_path destination source_file source_root true
          path_exists timestamp =
        destination ++ source_file.drop source_root.length) ∧
      (path_exists (destination ++ source_file.drop source_root.length) =
          false →
        build_destination_path destination source_file source_root false
            path_exists timestamp =
          destination ++ source_file.drop source_root.length) ∧
      (path_exists (destination ++ source_file.drop source_root.length) =
          true →
        build_destination_path destination source_file source_root false
            path_exists timestamp =
          (destination ++ source_file.drop source_root.length).dropLast ++
            [(splitStemSuffix ((destination ++
                source_file.drop source_root.length).getLastD "")).1 ++
              "_" ++ timestamp ++
              (splitStemSuffix ((destination ++
                source_file.drop source_root.length).getLastD "")).2] ∧
        (splitStemSuffix ((destination ++
            source_file.drop source_root.length).getLastD "")).1 ++
          (splitStemSuffix ((destination ++
            source_file.drop source_root.length).getLastD "")).2 =
          (destination ++ source_file.drop source_root.length).getLastD "")) ∧
    (source_root.isPrefixOf source_file = false →
      ∀ overwrite_existing,
        path_exists (destination ++ [source_file.getLastD ""]) = false →
        build_destination_path destination source_file source_root
            overwrite_existing path_exists timestamp =
          destination ++ [source_file.getLastD ""]) := by
  constructor
  · intro hroot
    refine ⟨?_, ?_, ?_⟩
    · unfold build_destination_path
      simp only [hroot, if_true]
      by_cases hpe : path_exists (destination ++
          source_file.drop source_root.length) = true
      · simp [hpe]
      · simp only [Bool.not_eq_true] at hpe
        simp [hpe]
    · intro hpe
      unfold build_destination_path
      simp only [hroot, if_true, hpe]
      simp
    · intro hpe
      constructor
      · unfold build_destination_path
        simp only [hroot, if_true, hpe]
        simp
      · exact splitStemSuffix_append _
  · intro hroot overwrite_existing hpe
    unfold build_destination_path
    simp only [hroot, Bool.false_eq_true, if_false, hpe]

/-- Witness for C6 at concrete paths. -/
theorem build_destination_path_spec_witness :
    build_destination_path ["dst"] ["src", "sub", "a.bak"] ["src"] true
        (fun _ => false) "20240101-120000" = ["dst", "sub", "a.bak"] :=
  ((build_destination_path_spec ["dst"] ["src", "sub", "a.bak"] ["src"]
    (fun _ => false) "20240101-120000").1 (by decide)).1

/-- C5: resuming from a temp file holding a strict prefix of the source
opens at that offset in append mode, a temp at least as large as the
source restarts from offset zero after truncation, and in both cases a
completed copy publishes a target byte-identical to the source. -/
theorem copy_backup_resume_correct (src : List Nat) (P : Nat)
    (hP : P ≤ src.length) (dest_exists overwrite_existing : Bool)
    (hno_skip : (dest_exists && !overwrite_existing) = false) :
    ∃ r, copy_backup src (some (src.take P)) dest_exists
        overwrite_existing = some r ∧
      r.target = src ∧
      (P < src.length → r.resume_mode = true ∧ r.start_pos = P) ∧
      (src.length ≤ P → r.resume_mode = false ∧ r.start_pos = 0) := by
  have hlen : (src.take P).length = P := by
    rw [List.length_take]
    omega
  by_cases hPlt : P < src.length
  · refine ⟨⟨true, P, src⟩, ?_, rfl, fun _ => ⟨rfl, rfl⟩,
      fun hge => absurd hPlt (Nat.not_lt.mpr hge)⟩
    unfold copy_backup copy_file_with_progress
    simp only [hlen, hPlt, if_true, hno_skip, Bool.false_eq_true, if_false]
    rw [readChunks_eq_drop, List.take_append_drop]
  · have hge : src.length ≤ P := Nat.le_of_not_lt hPlt
    refine ⟨⟨false, 0, src⟩, ?_, rfl,
      fun hlt => absurd hlt hPlt, fun _ => ⟨rfl, rfl⟩⟩
    unfold copy_backup copy_file_with_progress
    simp only [hlen, hPlt, if_false, hno_skip, Bool.false_eq_true]
    rw [readChunks_eq_drop, List.drop_zero]
    simp

/-- Witness for C5: a three-byte source resumed from a one-byte prefix. -/
theorem copy_backup_resume_correct_witness :
    ∃ r, copy_backup [7, 8, 9] (some ([7, 8, 9].take 1)) false false =
        some r ∧
      r.target = [7, 8, 9] ∧
      (1 < ([7, 8, 9] : List Nat).length →
        r.resume_mode = true ∧ r.start_pos = 1) ∧
      (([7, 8, 9] : List Nat).length ≤ 1 →
        r.resume_mode = false ∧ r.start_pos = 0) :=
  copy_backup_resume_correct [7, 8, 9] 1 (by decide) false false (by decide)

/-- C3 counterexample: a file entry that matches the patterns, is not
under `.history/`, and is strictly older than the threshold, yet is not
deleted by the days pass, because `_iter_backup_entries` also excludes
files carrying the `.part` suffix. -/
theorem days_retention_part_counterexample :
    matches_patterns "x.part" ["*"] = true ∧
    (DEntry.mk ["x.part"] false 0 []).relParts.head? ≠
      some HISTORY_DIR_NAME ∧
    entryTs [] (DEntry.mk ["x.part"] false 0 []) < 86401 - 1 * 86400 ∧
    (_enforce_days_retention [DEntry.mk ["x.part"] false 0 []] ["*"]
      [] 86401 1).deleted = [] := by
  refine ⟨by decide, by decide, by decide, ?_⟩
  decide

/-- C3 amended: for positive retention the days pass deletes exactly the
iterated entries (matching the patterns, not under `.history/`, and for
files without the `.part` suffix) whose effective timestamp is strictly
older than the threshold; deleted keys disappear from the history map,
other bindings survive, and entries at or newer than the threshold are
kept. -/
theorem days_retention_exact (entries : List DEntry)
    (patterns : List String) (sync_history : HistMap)
    (now retention_days : Int) (hD : 0 < retention_days) :
    (∀ e, e ∈ (_enforce_days_retention entries patterns sync_history now
        retention_days).deleted ↔
      (e ∈ _iter_backup_entries entries patterns ∧
        entryTs sync_history e < now - retention_days * 86400)) ∧
    (∀ e ∈ (_enforce_days_retention entries patterns sync_history now
        retention_days).deleted,
      lookupHist (_enforce_days_retention entries patterns sync_history now
        retention_days).history e.relParts = none) ∧
    (∀ kv ∈ sync_history,
      (∀ e ∈ (_enforce_days_retention entries patterns sync_history now
        retention_days).deleted, e.relParts ≠ kv.1) →
      kv ∈ (_enforce_days_retention entries patterns sync_history now
        retention_days).history) ∧
    (∀ e ∈ _iter_backup_entries entries patterns,
      now - retention_days * 86400 ≤ entryTs sync_history e →
      e ∉ (_enforce_days_retention entries patterns sync_history now
        retention_days).deleted) := by
  have hneg : ¬ retention_days ≤ 0 := not_le.mpr hD
  have hdel : (_enforce_days_retention entries patterns sync_history now
      retention_days).deleted =
      (_iter_backup_entries entries patterns).filter
        (fun e => decide (entryTs sync_history e <
          now - retention_days * 86400)) := by
    simp only [_enforce_days_retention]
    rw [if_neg hneg]
  have hhist : (_enforce_days_retention entries patterns sync_history now
      retention_days).history =
      sync_history.filter (fun kv =>
        !((((_iter_backup_entries entries patterns).filter
          (fun e => decide (entryTs sync_history e <
            now - retention_days * 86400))).map
              (fun e => e.relParts)).contains kv.1)) := by
    simp only [_enforce_days_retention]
    rw [if_neg hneg]
  refine ⟨?_, ?_, ?_, ?_⟩
  · intro e
    rw [hdel, List.mem_filter]
    simp only [decide_eq_true_eq]
  · intro e he
    rw [hhist]
    rw [hdel] at he
    exact lookupHist_filter_removed
      (List.mem_map_of_mem (fun e => e.relParts) he)
  · intro kv hkv hne
    rw [hhist]
    apply mem_filter_kept hkv
    intro hmemk
    obtain ⟨e, he, heq⟩ := List.mem_map.mp hmemk
    rw [← hdel] at he
    exact hne e he heq
  · intro e hiter hts he
    rw [hdel] at he
    have := List.mem_filter.mp he
    rw [decide_eq_true_eq] at this
    exact absurd this.2 (not_lt.mpr hts)

/-- Witness for C3 at a one-entry destination: an old `a.bak` one day
past a one-day retention is deleted. -/
theorem days_retention_exact_witness :
    DEntry.mk ["a.bak"] false 0 [] ∈
      (_enforce_days_retention [DEntry.mk ["a.bak"] false 0 []] ["*"]
        [] 86401 1).deleted :=
  ((days_retention_exact [DEntry.mk ["a.bak"] false 0 []] ["*"] [] 86401 1
    (by decide)).1 (DEntry.mk ["a.bak"] false 0 [])).mpr
    ⟨by decide, by decide⟩

theorem sortDesc_split (fe : List (DEntry × Int)) (n : Nat)
    (hn : n ≤ fe.length) :
    ((List.insertionSort (fun a b : DEntry × Int => b.2 ≤ a.2) fe).take
      n).length = n ∧
    ((List.insertionSort (fun a b : DEntry × Int => b.2 ≤ a.2) fe).take n ++
      (List.insertionSort (fun a b : DEntry × Int => b.2 ≤ a.2)
        fe).drop n).Perm fe ∧
    (∀ x ∈ (List.insertionSort (fun a b : DEntry × Int => b.2 ≤ a.2)
        fe).take n,
      ∀ y ∈ (List.insertionSort (fun a b : DEntry × Int => b.2 ≤ a.2)
        fe).drop n, y.2 ≤ x.2) := by
  have hperm := List.perm_insertionSort
    (fun a b : DEntry × Int => b.2 ≤ a.2) fe
  have hlen : (List.insertionSort
      (fun a b : DEntry × Int => b.2 ≤ a.2) fe).length = fe.length :=
    hperm.length_eq
  refine ⟨?_, ?_, ?_⟩
  · rw [List.length_take]
    omega
  · rw [List.take_append_drop]
    exact hperm
  · have hpw : List.Pairwise (fun a b : DEntry × Int => b.2 ≤ a.2)
        (List.insertionSort (fun a b : DEntry × Int => b.2 ≤ a.2) fe) :=
      List.sorted_insertionSort _ _
    have hpw2 : List.Pairwise (fun a b : DEntry × Int => b.2 ≤ a.2)
        ((List.insertionSort (fun a b : DEntry × Int => b.2 ≤ a.2)
          fe).take n ++
         (List.insertionSort (fun a b : DEntry × Int => b.2 ≤ a.2)
          fe).drop n) := by
      rw [List.take_append_drop]
      exact hpw
    exact fun x hx y hy => (List.pairwise_append.mp hpw2).2.2 x hx y hy

/-- C4: with positive limit N, a pass over at most N iterated entries
deletes nothing and keeps the history; over more than N it keeps exactly
the N newest by effective timestamp, deletes the rest, and removes the
deleted keys from the history map. -/
theorem count_retention_keeps_newest (entries : List DEntry)
    (patterns : List String) (sync_history : HistMap)
    (retention_limit : Int) (hN : 0 < retention_limit) :
    (((_iter_backup_entries entries patterns).length : Int) ≤
        retention_limit →
      (_enforce_count_retention entries patterns sync_history
        retention_limit).deleted = [] ∧
      (_enforce_count_retention entries patterns sync_history
        retention_limit).history = sync_history ∧
      (_enforce_count_retention entries patterns sync_history
        retention_limit).changed = false) ∧
    (retention_limit < ((_iter_backup_entries entries patterns).length :
        Int) →
      ∃ survivors : List (DEntry × Int),
        survivors.length = retention_limit.toNat ∧
        (survivors ++ (_enforce_count_retention entries patterns
          sync_history retention_limit).deleted.map
            (fun e => (e, entryTs sync_history e))).Perm
          ((_iter_backup_entries entries patterns).map
            (fun e => (e, entryTs sync_history e))) ∧
        (_enforce_count_retention entries patterns sync_history
          retention_limit).deleted.length =
          (_iter_backup_entries entries patterns).length -
            retention_limit.toNat ∧
        (∀ sv ∈ survivors,
          ∀ d ∈ (_enforce_count_retention entries patterns sync_history
            retention_limit).deleted, entryTs sync_history d ≤ sv.2) ∧
        (∀ e ∈ (_enforce_count_retention entries patterns sync_history
            retention_limit).deleted,
          lookupHist (_enforce_count_retention entries patterns
            sync_history retention_limit).history e.relParts = none)) := by
  have hneg : ¬ retention_limit ≤ 0 := not_le.mpr hN
  constructor
  · intro hle
    have hcond : ((((_iter_backup_entries entries patterns).map
        (fun e => (e, entryTs sync_history e))).length : Int)) ≤
          retention_limit := by
      rw [List.length_map]
      exact hle
    have hres : _enforce_count_retention entries patterns sync_history
        retention_limit = ⟨[], sync_history, false⟩ := by
      simp only [_enforce_count_retention]
      rw [if_neg hneg, if_pos hcond]
    rw [hres]
    exact ⟨rfl, rfl, rfl⟩
  · intro hgt
    have hcond : ¬ ((((_iter_backup_entries entries patterns).map
        (fun e => (e, entryTs sync_history e))).length : Int)) ≤
          retention_limit := by
      rw [List.length_map]
      omega
    have hdel : (_enforce_count_retention entries patterns sync_history
        retention_limit).deleted =
        ((List.insertionSort (fun a b : DEntry × Int => b.2 ≤ a.2)
          ((_iter_backup_entries entries patterns).map
            (fun e => (e, entryTs sync_history e)))).drop
              retention_limit.toNat).map (fun p => p.1) := by
      simp only [_enforce_count_retention]
      rw [if_neg hneg, if_neg hcond]
    have hhist : (_enforce_count_retention entries patterns sync_history
        retention_limit).history =
        sync_history.filter (fun kv =>
          !((((List.insertionSort (fun a b : DEntry × Int => b.2 ≤ a.2)
            ((_iter_backup_entries entries patterns).map
              (fun e => (e, entryTs sync_history e)))).drop
                retention_limit.toNat).map
                  (fun p => p.1.relParts)).contains kv.1)) := by
      simp only [_enforce_count_retention]
      rw [if_neg hneg, if_neg hcond]
    have hperm := List.perm_insertionSort
      (fun a b : DEntry × Int => b.2 ≤ a.2)
      ((_iter_backup_entries entries patterns).map
        (fun e => (e, entryTs sync_history e)))
    have hsortlen : (List.insertionSort
        (fun a b : DEntry × Int => b.2 ≤ a.2)
        ((_iter_backup_entries entries patterns).map
          (fun e => (e, entryTs sync_history e)))).length =
        (_iter_backup_entries entries patterns).length := by
      rw [hperm.length_eq, List.length_map]
    have hnle : retention_limit.toNat ≤
        ((_iter_backup_entries entries patterns).map
          (fun e => (e, entryTs sync_history e))).length := by
      rw [List.length_map]
      omega
    obtain ⟨htake_len, hsplit_perm, horder⟩ :=
      sortDesc_split ((_iter_backup_entries entries patterns).map
        (fun e => (e, entryTs sync_history e))) retention_limit.toNat hnle
    have hpair : ∀ p ∈ (List.insertionSort
        (fun a b : DEntry × Int => b.2 ≤ a.2)
        ((_iter_backup_entries entries patterns).map
          (fun e => (e, entryTs sync_history e)))).drop
            retention_limit.toNat,
        p.2 = entryTs sync_history p.1 := by
      intro p hp
      have hpin : p ∈ (_iter_backup_entries entries patterns).map
          (fun e => (e, entryTs sync_history e)) :=
        hperm.mem_iff.mp (List.mem_of_mem_drop hp)
      obtain ⟨e, _, heq⟩ := List.mem_map.mp hpin
      rw [← heq]
    have hdel_pairs : (_enforce_count_retention entries patterns
        sync_history retention_limit).deleted.map
          (fun e => (e, entryTs sync_history e)) =
        (List.insertionSort (fun a b : DEntry × Int => b.2 ≤ a.2)
          ((_iter_backup_entries entries patterns).map
            (fun e => (e, entryTs sync_history e)))).drop
              retention_limit.toNat := by
      rw [hdel, List.map_map]
      have hcongr := List.map_congr_left
        (l := (List.insertionSort (fun a b : DEntry × Int => b.2 ≤ a.2)
          ((_iter_backup_entries entries patterns).map
            (fun e => (e, entryTs sync_history e)))).drop
              retention_limit.toNat)
        (f := (fun e => (e, entryTs sync_history e)) ∘ (fun p => p.1))
        (g := id)
        (fun p hp => by
          have hp2 := hpair p hp
          show (p.1, entryTs sync_history p.1) = p
          rw [← hp2])
      rw [hcongr, List.map_id]
    refine ⟨(List.insertionSort (fun a b : DEntry × Int => b.2 ≤ a.2)
      ((_iter_backup_entries entries patterns).map
        (fun e => (e, entryTs sync_history e)))).take retention_limit.toNat,
      htake_len, ?_, ?_, ?_, ?_⟩
    · rw [hdel_pairs]
      exact hsplit_perm
    · rw [hdel, List.length_map, List.length_drop, hsortlen]
    · intro sv hsv d hd
      rw [hdel] at hd
      obtain ⟨p, hp, hpe⟩ := List.mem_map.mp hd
      have hts : entryTs sync_history d = p.2 := by
        rw [← hpe, hpair p hp]
      rw [hts]
      exact horder sv hsv p hp
    · intro e he
      rw [hhist]
      apply lookupHist_filter_removed
      rw [hdel] at he
      obtain ⟨p, hp, hpe⟩ := List.mem_map.mp he
      have : e.relParts = p.1.relParts := by rw [← hpe]
      rw [this]
      exact List.mem_map_of_mem (fun p => p.1.relParts) hp

/-- Witness for C4: two entries under limit two are all kept. -/
theorem count_retention_keeps_newest_witness :
    (_enforce_count_retention [DEntry.mk ["a.bak"] false 5 []] ["*"]
      [] 2).deleted = [] ∧
    (_enforce_count_retention [DEntry.mk ["a.bak"] false 5 []] ["*"]
      [] 2).history = [] ∧
    (_enforce_count_retention [DEntry.mk ["a.bak"] false 5 []] ["*"]
      [] 2).changed = false :=
  (count_retention_keeps_newest [DEntry.mk ["a.bak"] false 5 []] ["*"]
    [] 2 (by decide)).1 (by decide)

/-- C9: on an invalid source the validation error is raised but caught
inside `run`, so the CLI process exits with status 0, not 1 as the spec
requires; the error never reaches the `sys.exit(1)` handler in `main`. -/
theorem cli_exit_zero_on_invalid_source :
    validate_paths false false =
      Except.error "Source folder does not exist or is not a directory" ∧
    FileSyncManager_run false false = Except.ok false ∧
    main_exit_code false false = 0 ∧
    (∀ source_exists source_is_dir,
      main_exit_code source_exists source_is_dir = 0) := by
  refine ⟨rfl, rfl, rfl, ?_⟩
  intro se sd
  cases se <;> cases sd <;> rfl

end Filesync
